import Mathlib

/-
Verification of the Tag Taxonomy Engine of the utopia_flask repository.

The definitions below are a shallow embedding of the Python sources:
  app/models/tag.py          (Tag entity, get_ancestors, can_be_parent_of,
                              update_path, increment_usage)
  app/services/tag_tree_service.py
                             (create_tag, move_tag, merge_tags, get_tag_tree,
                              search_tags, get_tag_suggestions,
                              get_popular_tags, get_categories)
  app/utils/ai_mapping.py    (AITagMapper._score_candidates)

Modelling conventions:
  - The SQLAlchemy table of tags is a list of `Tag` records; the EntryTag
    table is a list of (entry_id, tag_id) pairs.  Row ids are Nat (the
    uuid4 strings are opaque unique ids; `freshId` models their
    uniqueness by picking max+1).
  - SQLAlchemy mutation of a row is `setTag` (replace the row with the
    matching id); queries are `List.find?` / `List.filter` over the list.
  - Numeric columns quality_score / popularity_score are rationals; the
    float constants 0.1 and 1.2 of the source are the exact rationals
    1/10 and 6/5 (their float rounding is immaterial to every verified
    claim).
  - Python object identity of ORM rows (the session identity map) is id
    equality.
  - Chinese user-facing message strings are kept as in the source (the
    interpolated tag name of one message is elided).
  - String operations are re-implemented on `String.data` so that they
    are kernel-computable: `pyLower` / `pyStrip` model str.lower and
    str.strip, `strLeB` models the text collation used by ORDER BY as
    code-point lexicographic comparison, `containsSeq` models SQL
    ILIKE-substring matching (wildcard characters inside the user
    keyword are treated literally).
  - Columns never read by any modeled operation (description_en,
    is_system, related_tags, external_links, applicable_content_types,
    timestamps, approver fields) are omitted; the JSONB properties bag is
    modeled by the only key the engine reads or writes, merged_to.
  - History recording (TagHistory) appends to a separate audit table
    that no verified claim constrains; it is omitted.  Actor-id
    parameters that feed only the history record are likewise dropped.
  - get_tag_tree is modeled without the include_stats statistics
    attachment, which no claim mentions.
-/

namespace UtopiaTag

/-- Lower-casing of a string, character by character (models Python
str.lower for the ASCII names used by the engine). -/
def pyLower (s : String) : String :=
  String.mk (s.data.map Char.toLower)

/-- Whitespace stripping at both ends (models Python str.strip()). -/
def pyStrip (s : String) : String :=
  String.mk (((s.data.dropWhile Char.isWhitespace).reverse.dropWhile
    Char.isWhitespace).reverse)

/-- Stripping of percent characters at both ends (models Python
str.strip with argument, used on the ILIKE pattern). -/
def stripPercent (s : String) : String :=
  String.mk (((s.data.dropWhile (fun c => c == '%')).reverse.dropWhile
    (fun c => c == '%')).reverse)

/-- Does `pat` occur as a contiguous subsequence of `l`?  (Substring
test used to model SQL ILIKE with a %…% pattern.) -/
def containsSeq (pat : List Char) : List Char → Bool
  | [] => pat.isEmpty
  | c :: rest => pat.isPrefixOf (c :: rest) || containsSeq pat rest

/-- Case-insensitive substring test: `hay ILIKE %kw%`. -/
def ilikeContains (hay kw : String) : Bool :=
  containsSeq (pyLower kw).data (pyLower hay).data

/-- Case-insensitive prefix test: `hay ILIKE kw%`. -/
def ilikePrefixMatch (hay kw : String) : Bool :=
  (pyLower kw).data.isPrefixOf (pyLower hay).data

/-- Code-point lexicographic comparison of character lists; models the
text collation of ORDER BY name. -/
def strLeB : List Char → List Char → Bool
  | [], _ => true
  | _ :: _, [] => false
  | a :: as, b :: bs =>
    if a.toNat < b.toNat then true
    else if b.toNat < a.toNat then false
    else strLeB as bs

/-- The Tag row (app/models/tag.py, class Tag). -/
structure Tag where
  id : Nat
  name : String
  name_en : String
  description : String
  parent_id : Option Nat
  level : Nat
  path : String
  category : String
  domain : String
  is_abstract : Bool
  status : String
  quality_score : ℚ
  usage_count : Nat
  popularity_score : ℚ
  aliases : List String
  merged_to : Option Nat
  created_by : Nat
deriving DecidableEq

/-- The persistent state: the tags table and the EntryTag association
table (entry_id, tag_id). -/
structure TagStore where
  tags : List Tag
  entry_tags : List (Nat × Nat)
deriving DecidableEq

/-- The ids of all rows of the tags table. -/
def tagIds (s : TagStore) : List Nat :=
  s.tags.map (fun t => t.id)

/-- `Tag.query.filter_by(id=i).first()` — lookup by primary key. -/
def findById (s : TagStore) (i : Nat) : Option Tag :=
  s.tags.find? (fun t => t.id == i)

/-- `Tag.query.filter_by(id=i, status='active').first()`. -/
def findActive (s : TagStore) (i : Nat) : Option Tag :=
  s.tags.find? (fun t => t.id == i && t.status == "active")

/-- `Tag.query.filter_by(name=n, status='active').first()`. -/
def findActiveByName (s : TagStore) (n : String) : Option Tag :=
  s.tags.find? (fun t => t.name == n && t.status == "active")

/-- SQLAlchemy row mutation: replace the row whose id matches. -/
def setTag (s : TagStore) (t' : Tag) : TagStore :=
  { s with tags := s.tags.map (fun t => if t.id == t'.id then t' else t) }

/-- The `children` backref: ids of the rows whose parent_id points at
`i` (no status filter, exactly as the relationship). -/
def childrenIds (s : TagStore) (i : Nat) : List Nat :=
  (s.tags.filter (fun t => t.parent_id == some i)).map (fun t => t.id)

/-- A fresh primary key (models uuid4 uniqueness). -/
def freshId (s : TagStore) : Nat :=
  (s.tags.foldr (fun t m => max t.id m) 0) + 1

/-- Well-formedness: primary keys are unique (DB primary-key
constraint). -/
def NodupIds (s : TagStore) : Prop :=
  (tagIds s).Nodup

instance (s : TagStore) : Decidable (NodupIds s) := by
  unfold NodupIds; infer_instance

/-- Boolean check of the parent foreign-key constraint. -/
def parentsOkB (s : TagStore) : Bool :=
  s.tags.all (fun t =>
    match t.parent_id with
    | some p => (tagIds s).contains p
    | none => true)

/-- Every parent_id references a row of the tags table (DB foreign-key
constraint `tags.parent_id REFERENCES tags.id`). -/
def ParentsExist (s : TagStore) : Prop :=
  parentsOkB s = true

instance (s : TagStore) : Decidable (ParentsExist s) := by
  unfold ParentsExist; infer_instance

/-- One step of the parent chain: the parent_id of the row with id `i`. -/
def parentLink (s : TagStore) (i : Nat) : Option Nat :=
  (findById s i).bind (fun t => t.parent_id)

/-- Iterate an optional-successor function `n` times. -/
def iterL (f : Nat → Option Nat) : Nat → Option Nat → Option Nat
  | 0, o => o
  | n + 1, o => (iterL f n o).bind f

/-- Acyclicity of an optional-successor function: no id returns to
itself in one or more steps. -/
def AcyclicF (f : Nat → Option Nat) : Prop :=
  ∀ a n, 0 < n → iterL f n (some a) ≠ some a

/-- `b` is reachable from `a` by following parent pointers one or more
times — `a` is a strict descendant of `b` in the tag tree. -/
def Reaches (s : TagStore) (a b : Nat) : Prop :=
  ∃ n, 0 < n ∧ iterL (parentLink s) n (some a) = some b

/-- No tag is ever its own ancestor. -/
def Acyclic (s : TagStore) : Prop :=
  AcyclicF (parentLink s)

/-- Fuel-bounded walk up the parent chain starting from an optional
parent pointer; collects the ids of the tags visited.  With fuel
`s.tags.length` this captures the full ancestor chain of any tag of an
acyclic store. -/
def ancWalk (s : TagStore) : Nat → Option Nat → List Nat
  | _, none => []
  | 0, some _ => []
  | fuel + 1, some pid =>
    match findById s pid with
    | none => []
    | some p => pid :: ancWalk s fuel p.parent_id

/-- `Tag.get_ancestors` — walk `self.parent` pointers upward, collecting
every ancestor (as ids; ORM object membership is id membership). -/
def get_ancestors (s : TagStore) (t : Tag) : List Nat :=
  ancWalk s s.tags.length t.parent_id

/-- `Tag.can_be_parent_of(other)` — self may become other's parent
unless self IS other or other is an ancestor of self. -/
def can_be_parent_of (s : TagStore) (self other : Tag) : Bool :=
  if self.id == other.id then false
  else if (get_ancestors s self).contains other.id then false
  else true

/-- Executable acyclicity check: no stored tag occurs in its own
ancestor walk. -/
def checkAcyclic (s : TagStore) : Bool :=
  s.tags.all (fun t => !((get_ancestors s t).contains t.id))

/-- One step of `Tag.update_path`: path := parent.path + "/" + name if
the parent row exists, else just name.  Only the path field changes. -/
def updatePathOne (s : TagStore) (t : Tag) : Tag :=
  match t.parent_id.bind (findById s) with
  | none => { t with path := t.name }
  | some p => { t with path := p.path ++ "/" ++ t.name }

/-- `Tag.update_path` — recompute the path of the tag with id `i`, then
recursively the path of every child (fuel-bounded; fuel
`s.tags.length` suffices for the acyclic stores the engine maintains).
Note: update_path never touches the level column. -/
def update_path : Nat → TagStore → Nat → TagStore
  | 0, s, _ => s
  | fuel + 1, s, i =>
    match findById s i with
    | none => s
    | some t =>
      (childrenIds (setTag s (updatePathOne s t)) i).foldl
        (fun acc c => update_path fuel acc c) (setTag s (updatePathOne s t))

/-- `Tag.increment_usage` — usage_count += 1 and popularity_score :=
usage_count * 0.1. -/
def increment_usage (t : Tag) : Tag :=
  let t1 := { t with usage_count := t.usage_count + 1 }
  { t1 with popularity_score := (t1.usage_count : ℚ) / 10 }

/-- The row inserted by create_tag, with the column defaults of tag.py
(status active, usage 0, quality baseline, empty path before
update_path runs). -/
def newTagFor (s : TagStore) (name : String) (user_id : Nat)
    (parent_id : Option Nat) (description name_en category domain : String)
    (is_abstract : Bool) (aliases : List String) (level : Nat) : Tag :=
  { id := freshId s, name := name, name_en := name_en,
    description := description, parent_id := parent_id, level := level,
    path := "", category := category, domain := domain,
    is_abstract := is_abstract, status := "active", quality_score := 5,
    usage_count := 0, popularity_score := 0, aliases := aliases,
    merged_to := none, created_by := user_id }

/-- Internals of tag creation after all checks passed: insert the new
row, then update_path on it (TagTreeService.create_tag, lines 63-94). -/
def createCommit (s : TagStore) (name : String) (user_id : Nat)
    (parent_id : Option Nat) (description name_en category domain : String)
    (is_abstract : Bool) (aliases : List String) (level : Nat) :
    TagStore × Nat :=
  (update_path (s.tags.length + 1)
    { s with tags := s.tags ++ [newTagFor s name user_id parent_id
        description name_en category domain is_abstract aliases level] }
    (freshId s), freshId s)

/-- `TagTreeService.create_tag` — validate the name, reject a collision
with an active tag of the same name, resolve the parent, insert.  The
101-character bound is the `db.String(100)` column constraint of
tag.py, raised by the database at flush time (after the explicit
checks), caught by the generic handler and returned as a failure. -/
def create_tag (s : TagStore) (name : String) (user_id : Nat)
    (parent_id : Option Nat) (description name_en category domain : String)
    (is_abstract : Bool) (aliases : List String) :
    Except String (TagStore × Nat) :=
  if pyStrip name == "" then .error "标签名称不能为空"
  else
    match s.tags.find? (fun t =>
        t.name == pyStrip name && t.status == "active") with
    | some _ => .error "标签已存在"
    | none =>
      match parent_id with
      | some pid =>
        match findActive s pid with
        | none => .error "父标签不存在"
        | some parent_tag =>
          if 100 < (pyStrip name).data.length then
            .error "创建标签失败：名称超长"
          else .ok (createCommit s (pyStrip name) user_id (some pid)
            description name_en category domain is_abstract aliases
            (parent_tag.level + 1))
      | none =>
        if 100 < (pyStrip name).data.length then
          .error "创建标签失败：名称超长"
        else .ok (createCommit s (pyStrip name) user_id none description
          name_en category domain is_abstract aliases 0)

/-- `TagTreeService.move_tag` — resolve the tag and the new parent (both
must be active), run the cycle check, then reassign parent_id, set
level from the new parent, and cascade update_path. -/
def move_tag (s : TagStore) (tag_id : Nat) (new_parent_id : Option Nat) :
    Except String TagStore :=
  match findActive s tag_id with
  | none => .error "标签不存在"
  | some tag =>
    match new_parent_id with
    | some pid =>
      match findActive s pid with
      | none => .error "新父标签不存在"
      | some new_parent =>
        if can_be_parent_of s new_parent tag then
          .ok (update_path s.tags.length
            (setTag s { tag with parent_id := some pid,
                                 level := new_parent.level + 1 }) tag_id)
        else .error "无法移动到此位置，会创建循环引用"
    | none =>
      .ok (update_path s.tags.length
        (setTag s { tag with parent_id := none, level := 0 }) tag_id)

/-- The EntryTag rewrite step of merge_tags: every content reference to
the source becomes a reference to the target. -/
def mergeEntryRewrite (s : TagStore) (source_tag_id target_tag_id : Nat) :
    TagStore :=
  { s with entry_tags := s.entry_tags.map (fun et =>
      if et.2 == source_tag_id then (et.1, target_tag_id) else et) }

/-- The target row after a merge: usage_count grows by the source usage
and increment_usage runs on top of it; the aliases become the union
when the source has any. -/
def mergedTarget (source_tag target_tag : Tag) : Tag :=
  if source_tag.aliases.isEmpty then
    increment_usage { target_tag with
      usage_count := target_tag.usage_count + source_tag.usage_count }
  else
    { increment_usage { target_tag with
        usage_count := target_tag.usage_count + source_tag.usage_count } with
      aliases := ((increment_usage { target_tag with
        usage_count := target_tag.usage_count + source_tag.usage_count }).aliases
          ++ source_tag.aliases).dedup }

/-- The source row after a merge: status merged, merged_to recorded. -/
def mergedSource (source_tag : Tag) (target_tag_id : Nat) : Tag :=
  { source_tag with status := "merged", merged_to := some target_tag_id }

/-- `TagTreeService.merge_tags` — rewrite EntryTag references, add the
source usage_count to the target and call increment_usage, union the
aliases when the source has any (the Python set union is modeled as a
deduplicating append; its element order is unspecified in the source),
then mark the source merged with a merged_to pointer. -/
def merge_tags (s : TagStore) (source_tag_id target_tag_id : Nat) :
    Except String TagStore :=
  match findActive s source_tag_id, findActive s target_tag_id with
  | some source_tag, some target_tag =>
    if source_tag.id == target_tag.id then .error "不能合并相同的标签"
    else
      .ok (setTag
        (setTag (mergeEntryRewrite s source_tag_id target_tag_id)
          (mergedTarget source_tag target_tag))
        (mergedSource source_tag target_tag_id))
  | _, _ => .error "标签不存在"

/-- ORDER BY usage_count DESC, quality_score DESC, name ASC — the
lexicographic order of search_tags. -/
def searchLe (a b : Tag) : Prop :=
  b.usage_count < a.usage_count ∨
    (a.usage_count = b.usage_count ∧
      (b.quality_score < a.quality_score ∨
        (a.quality_score = b.quality_score ∧
          strLeB a.name.data b.name.data = true)))

instance : DecidableRel searchLe := fun a b => by
  unfold searchLe; infer_instance

instance : IsTrans Tag searchLe := by
  constructor
  have strtrans : ∀ x y z : List Char, strLeB x y = true →
      strLeB y z = true → strLeB x z = true := by
    intro x
    induction x with
    | nil => intro y z h1 h2; rfl
    | cons a as ih =>
      intro y z h1 h2
      cases y with
      | nil => cases h1
      | cons b bs =>
        cases z with
        | nil => cases h2
        | cons c cs =>
          simp only [strLeB] at h1 h2 ⊢
          by_cases hab : a.toNat < b.toNat
          · by_cases hbc : b.toNat < c.toNat
            · rw [if_pos (by omega)]
            · rw [if_neg hbc] at h2
              by_cases hcb : c.toNat < b.toNat
              · rw [if_pos hcb] at h2; cases h2
              · rw [if_pos (by omega)]
          · rw [if_neg hab] at h1
            by_cases hba : b.toNat < a.toNat
            · rw [if_pos hba] at h1; cases h1
            · rw [if_neg hba] at h1
              by_cases hbc : b.toNat < c.toNat
              · rw [if_pos (by omega)]
              · rw [if_neg hbc] at h2
                by_cases hcb : c.toNat < b.toNat
                · rw [if_pos hcb] at h2; cases h2
                · rw [if_neg hcb] at h2
                  rw [if_neg (by omega), if_neg (by omega)]
                  exact ih bs cs h1 h2
  intro a b c hab hbc
  rcases hab with h1 | ⟨e1, hq1⟩
  · rcases hbc with h2 | ⟨e2, _⟩
    · exact Or.inl (lt_trans h2 h1)
    · exact Or.inl (by omega)
  · rcases hbc with h2 | ⟨e2, hq2⟩
    · exact Or.inl (by omega)
    · refine Or.inr ⟨by omega, ?_⟩
      rcases hq1 with hq1 | ⟨eq1, hs1⟩
      · rcases hq2 with hq2 | ⟨eq2, _⟩
        · exact Or.inl (lt_trans hq2 hq1)
        · exact Or.inl (by rw [← eq2]; exact hq1)
      · rcases hq2 with hq2 | ⟨eq2, hs2⟩
        · exact Or.inl (by rw [eq1]; exact hq2)
        · exact Or.inr ⟨eq1.trans eq2, strtrans _ _ _ hs1 hs2⟩

instance : IsTotal Tag searchLe := by
  constructor
  have strtotal : ∀ x y : List Char,
      strLeB x y = true ∨ strLeB y x = true := by
    intro x
    induction x with
    | nil => intro y; left; rfl
    | cons a as ih =>
      intro y
      cases y with
      | nil => right; rfl
      | cons b bs =>
        simp only [strLeB]
        by_cases h1 : a.toNat < b.toNat
        · left; rw [if_pos h1]
        · by_cases h2 : b.toNat < a.toNat
          · right; rw [if_pos h2]
          · rcases ih bs with h | h
            · left; rw [if_neg h1, if_neg h2]; exact h
            · right; rw [if_neg h2, if_neg h1]; exact h
  intro a b
  rcases lt_trichotomy a.usage_count b.usage_count with h | h | h
  · right; exact Or.inl h
  · rcases lt_trichotomy a.quality_score b.quality_score with hq | hq | hq
    · right; exact Or.inr ⟨h.symm, Or.inl hq⟩
    · rcases strtotal a.name.data b.name.data with hs | hs
      · left; exact Or.inr ⟨h, Or.inr ⟨hq, hs⟩⟩
      · right; exact Or.inr ⟨h.symm, Or.inr ⟨hq.symm, hs⟩⟩
    · left; exact Or.inr ⟨h, Or.inl hq⟩
  · left; exact Or.inl h

/-- ORDER BY usage_count DESC, quality_score DESC (get_tag_suggestions). -/
def suggestLe (a b : Tag) : Prop :=
  b.usage_count < a.usage_count ∨
    (a.usage_count = b.usage_count ∧ b.quality_score ≤ a.quality_score)

instance : DecidableRel suggestLe := fun a b => by
  unfold suggestLe; infer_instance

/-- ORDER BY usage_count DESC, popularity_score DESC (get_popular_tags). -/
def popularLe (a b : Tag) : Prop :=
  b.usage_count < a.usage_count ∨
    (a.usage_count = b.usage_count ∧ b.popularity_score ≤ a.popularity_score)

instance : DecidableRel popularLe := fun a b => by
  unfold popularLe; infer_instance

/-- ORDER BY name ASC (root listing of get_tag_tree). -/
def nameLe (a b : Tag) : Prop :=
  strLeB a.name.data b.name.data = true

instance : DecidableRel nameLe := fun a b => by
  unfold nameLe; infer_instance

/-- ORDER BY count DESC (get_categories). -/
def catCountLe (a b : String × Nat) : Prop :=
  b.2 ≤ a.2

instance : DecidableRel catCountLe := fun a b => by
  unfold catCountLe; infer_instance

/-- Descending order on candidate scores (sorted(..., reverse=True)). -/
def scoreLe (a b : Tag × ℚ) : Prop :=
  b.2 ≤ a.2

instance : DecidableRel scoreLe := fun a b => by
  unfold scoreLe; infer_instance

/-- The keyword clause of search_tags: the source wraps the keyword in
percent signs, ILIKE-matches it against name, name_en and description,
and tests JSONB containment of the re-stripped keyword against the
alias array. -/
def matchesKeyword (kw : String) (t : Tag) : Bool :=
  let pat := "%" ++ kw ++ "%"
  ilikeContains t.name kw || ilikeContains t.name_en kw ||
    ilikeContains t.description kw || t.aliases.contains (stripPercent pat)

/-- The optional category filter of search_tags. -/
def filterByCategory (category : Option String) (l : List Tag) : List Tag :=
  match category with
  | none => l
  | some c => l.filter (fun t => t.category == c)

/-- The optional domain filter of search_tags. -/
def filterByDomain (domain : Option String) (l : List Tag) : List Tag :=
  match domain with
  | none => l
  | some d => l.filter (fun t => t.domain == d)

/-- `TagTreeService.search_tags` — active tags only, optional keyword /
category / domain filters, ordered by usage desc, quality desc, name
asc, capped at limit.  (The dict projection of the rows is
presentational and omitted.) -/
def search_tags (s : TagStore) (keyword : String)
    (category domain : Option String) (limit : Nat) : List Tag :=
  (List.insertionSort searchLe
    (filterByDomain domain (filterByCategory category
      (if keyword == "" then
        s.tags.filter (fun t => t.status == "active")
      else
        (s.tags.filter (fun t => t.status == "active")).filter
          (matchesKeyword keyword))))).take limit

/-- `TagTreeService.get_tag_suggestions` — active tags whose name has
the given prefix (case-insensitive), ordered by usage desc, quality
desc, capped at limit. -/
def get_tag_suggestions (s : TagStore) (partialName : String)
    (limit : Nat) : List Tag :=
  (List.insertionSort suggestLe
    (s.tags.filter (fun t =>
      t.status == "active" && ilikePrefixMatch t.name partialName))).take limit

/-- `TagTreeService.get_popular_tags` — active tags ordered by usage
desc, popularity desc, capped at limit. -/
def get_popular_tags (s : TagStore) (limit : Nat) : List Tag :=
  (List.insertionSort popularLe
    (s.tags.filter (fun t => t.status == "active"))).take limit

/-- `TagTreeService.get_categories` — active tags grouped by category
with their counts, ordered by count desc. -/
def get_categories (s : TagStore) : List (String × Nat) :=
  List.insertionSort catCountLe
    ((((s.tags.filter (fun t => t.status == "active")).map
        (fun t => t.category)).dedup).map (fun c =>
      (c, ((s.tags.filter (fun t => t.status == "active")).filter
        (fun t => t.category == c)).length)))

/-- A node of the tree returned by get_tag_tree: the tag row plus the
children key, which is present (`some …`) exactly when the builder
descended and absent (`none`) when max_depth ran out. -/
inductive TagTree where
  | node : Tag → Option (List TagTree) → TagTree

/-- `TagTreeService._build_tag_tree` — the node itself; when max_depth >
0, also its active children ordered by name, built recursively with
max_depth - 1. -/
def buildTagTree (s : TagStore) (t : Tag) : Nat → TagTree
  | 0 => .node t none
  | d + 1 =>
    .node t (some ((List.insertionSort nameLe
      (s.tags.filter (fun c =>
        c.parent_id == some t.id && c.status == "active"))).map
      (fun c => buildTagTree s c d)))

/-- `TagTreeService.get_tag_tree` — with a root_id, every active row of
that id (at most one, by the primary key) built to max_depth; without
one, all active roots ordered by name, each built to max_depth. -/
def get_tag_tree (s : TagStore) (root_id : Option Nat) (max_depth : Nat) :
    List TagTree :=
  ((match root_id with
    | some rid => s.tags.filter (fun t => t.id == rid && t.status == "active")
    | none => List.insertionSort nameLe
        (s.tags.filter (fun t =>
          t.parent_id == none && t.status == "active")) : List Tag)).map
    (fun t => buildTagTree s t max_depth)

/-- All tags occurring in a tree node satisfy `P` (used to state what a
returned tree may contain). -/
inductive TreeAll (P : Tag → Prop) : TagTree → Prop
  | leaf (t : Tag) : P t → TreeAll P (.node t none)
  | branch (t : Tag) (cs : List TagTree) :
      P t → (∀ c ∈ cs, TreeAll P c) → TreeAll P (.node t (some cs))

/-- `AITagMapper._score_candidates` score of one candidate:
confidence, boosted by min(1.2, 1 + usage/100) when the tag has usage,
scaled by quality/10. -/
def candidateScore (parent_tag : Tag) (confidence : ℚ) : ℚ :=
  let score := confidence
  let score :=
    if 0 < parent_tag.usage_count then
      score * min (6/5 : ℚ) (1 + (parent_tag.usage_count : ℚ) / 100)
    else score
  score * (parent_tag.quality_score / 10)

/-- `AITagMapper._score_candidates` — resolve each nominated parent name
to an active tag (discarding unresolved ones), score it, accumulate per
resolved tag keeping the MAXIMUM of the scores (the Python dict is
keyed by the ORM row, i.e. by id), and sort by score descending. -/
def scoreCandidates (s : TagStore) (candidates : List (String × ℚ)) :
    List (Tag × ℚ) :=
  let scored := candidates.foldl (fun acc c =>
    match findActiveByName s c.1 with
    | none => acc
    | some parent_tag =>
      let score := candidateScore parent_tag c.2
      if acc.any (fun e => e.1.id == parent_tag.id) then
        acc.map (fun e =>
          if e.1.id == parent_tag.id then (e.1, max e.2 score) else e)
      else acc ++ [(parent_tag, score)]) []
  List.insertionSort scoreLe scored

/-- The store well-formedness the hierarchy engine maintains: unique
primary keys, valid parent foreign keys, and no tag its own ancestor. -/
def Invariant (s : TagStore) : Prop :=
  NodupIds s ∧ ParentsExist s ∧ Acyclic s

/-- A tag row with the column defaults of tag.py. -/
def baseTag (i : Nat) (nm : String) (pid : Option Nat) (lvl : Nat)
    (pth : String) : Tag :=
  { id := i, name := nm, name_en := "", description := "", parent_id := pid,
    level := lvl, path := pth, category := "general", domain := "general",
    is_abstract := false, status := "active", quality_score := 5,
    usage_count := 0, popularity_score := 0, aliases := [],
    merged_to := none, created_by := 0 }

/-- Concrete merge scenario: an active source (usage 3) with one child,
and an active target (usage 5). -/
def srcTag : Tag := { baseTag 1 "Src" none 0 "Src" with usage_count := 3 }

/-- The merge target, usage_count 5. -/
def tgtTag : Tag := { baseTag 2 "Tgt" none 0 "Tgt" with usage_count := 5 }

/-- A child of the merge source. -/
def srcChildTag : Tag := baseTag 3 "Kid" (some 1) 1 "Src/Kid"

/-- Store for the merge scenario; one entry references the source. -/
def mergeStore : TagStore :=
  { tags := [srcTag, tgtTag, srcChildTag], entry_tags := [(10, 1)] }

/-- The store after merging tag 1 into tag 2. -/
def mergeStoreOut : TagStore :=
  match merge_tags mergeStore 1 2 with
  | .ok s => s
  | .error _ => mergeStore

/-- Concrete three-level chain A -> B -> C with consistent paths and
levels. -/
def tagA : Tag := baseTag 1 "A" none 0 "A"

/-- Middle tag of the chain. -/
def tagB : Tag := baseTag 2 "B" (some 1) 1 "A/B"

/-- Leaf tag of the chain. -/
def tagC : Tag := baseTag 3 "C" (some 2) 2 "A/B/C"

/-- Store holding the chain A -> B -> C. -/
def chainStore : TagStore := { tags := [tagA, tagB, tagC], entry_tags := [] }

/-- The chain store after detaching B to the root. -/
def chainStoreOut : TagStore :=
  match move_tag chainStore 2 none with
  | .ok s => s
  | .error _ => chainStore

/-- A store holding a single deprecated tag named cat. -/
def depTag : Tag := { baseTag 1 "cat" none 0 "cat" with status := "deprecated" }

/-- Store for the deprecated-tag scenario. -/
def depStore : TagStore := { tags := [depTag], entry_tags := [] }

/-- An empty store. -/
def emptyStore : TagStore := { tags := [], entry_tags := [] }

/-- A 101-character name whose last character is a space: it strips to
100 characters. -/
def paddedName : String := String.mk (List.replicate 100 'a' ++ [' '])

/-- A 101-character name with no whitespace. -/
def longName : String := String.mk (List.replicate 101 'a')

/-- Store holding one active tag, the resolution target of the
classifier scenario. -/
def animalTag : Tag := baseTag 1 "动物" none 0 "动物"

/-- Store for the classifier scenario. -/
def classifierStore : TagStore := { tags := [animalTag], entry_tags := [] }

/-- Iterating from `none` stays `none`. -/
theorem iterL_none (f : Nat → Option Nat) (n : Nat) : iterL f n none = none := by
  induction n with
  | zero => rfl
  | succ n ih =>
    show (iterL f n none).bind f = none
    rw [ih]; rfl

/-- Splitting an iteration count. -/
theorem iterL_add (f : Nat → Option Nat) (m n : Nat) (o : Option Nat) :
    iterL f (m + n) o = iterL f n (iterL f m o) := by
  induction n with
  | zero => rfl
  | succ n ih =>
    show (iterL f (m + n) o).bind f = (iterL f n (iterL f m o)).bind f
    rw [ih]

/-- Peeling one step at the front of an iteration. -/
theorem iterL_succ_front (f : Nat → Option Nat) (n : Nat) (o : Option Nat) :
    iterL f (n + 1) o = iterL f n (o.bind f) := by
  rw [Nat.add_comm n 1, iterL_add]; rfl

/-- A successful long iteration is successful at every shorter count. -/
theorem iterL_isSome_of (f : Nat → Option Nat) {n j : Nat} {o : Option Nat}
    {b : Nat} (h : iterL f n o = some b) (hj : j ≤ n) :
    ∃ x, iterL f j o = some x := by
  rcases Nat.exists_eq_add_of_le hj with ⟨k, rfl⟩
  rw [iterL_add] at h
  cases hx : iterL f j o with
  | none => rw [hx, iterL_none] at h; cases h
  | some x => exact ⟨x, rfl⟩

/-- Iteration only depends on the pointwise behaviour of the step. -/
theorem iterL_ext {f g : Nat → Option Nat} (h : ∀ x, f x = g x) (n : Nat)
    (o : Option Nat) : iterL f n o = iterL g n o := by
  induction n with
  | zero => rfl
  | succ n ih =>
    show (iterL f n o).bind f = (iterL g n o).bind g
    rw [ih]
    cases iterL g n o with
    | none => rfl
    | some x => exact h x

/-- Two steps agreeing away from `tid` iterate identically along any
run that never visits `tid` before its last step. -/
theorem iterL_congr_avoid (f g : Nat → Option Nat) (tid : Nat)
    (hfg : ∀ x, x ≠ tid → g x = f x) (n : Nat) (o : Option Nat)
    (hav : ∀ j, j < n → iterL g j o ≠ some tid) :
    iterL g n o = iterL f n o := by
  induction n with
  | zero => rfl
  | succ n ih =>
    have hn : iterL g n o = iterL f n o :=
      ih (fun j hj => hav j (Nat.lt_succ_of_lt hj))
    show (iterL g n o).bind g = (iterL f n o).bind f
    rw [← hn]
    cases hx : iterL g n o with
    | none => rfl
    | some x =>
      have hxt : x ≠ tid := by
        intro he
        exact hav n (Nat.lt_succ_self n) (by rw [hx, he])
      show g x = f x
      exact hfg x hxt

/-- Acyclicity transfers along pointwise equal step functions. -/
theorem AcyclicF_ext {f g : Nat → Option Nat} (h : ∀ x, f x = g x)
    (hf : AcyclicF f) : AcyclicF g := by
  intro a n hn hc
  exact hf a n hn (by rw [iterL_ext h]; exact hc)

/-- A found row has the id it was looked up by. -/
theorem findById_id {s : TagStore} {i : Nat} {t : Tag}
    (h : findById s i = some t) : t.id = i := by
  have := List.find?_some h
  simpa using this

/-- A found row is a row of the store. -/
theorem findById_mem {s : TagStore} {i : Nat} {t : Tag}
    (h : findById s i = some t) : t ∈ s.tags :=
  List.mem_of_find?_eq_some h

/-- What findActive guarantees about its result. -/
theorem findActive_spec {s : TagStore} {i : Nat} {t : Tag}
    (h : findActive s i = some t) :
    t.id = i ∧ t.status = "active" ∧ t ∈ s.tags := by
  have h1 := List.find?_some h
  have h2 := List.mem_of_find?_eq_some h
  simp only [Bool.and_eq_true, beq_iff_eq] at h1
  exact ⟨h1.1, h1.2, h2⟩

/-- What findActiveByName guarantees about its result. -/
theorem findActiveByName_spec {s : TagStore} {n : String} {t : Tag}
    (h : findActiveByName s n = some t) :
    t.name = n ∧ t.status = "active" ∧ t ∈ s.tags := by
  have h1 := List.find?_some h
  have h2 := List.mem_of_find?_eq_some h
  simp only [Bool.and_eq_true, beq_iff_eq] at h1
  exact ⟨h1.1, h1.2, h2⟩

/-- A successful lookup id is a stored id. -/
theorem mem_tagIds_of_findById_isSome {s : TagStore} {x : Nat}
    (h : (findById s x).isSome) : x ∈ tagIds s := by
  rw [findById, List.find?_isSome] at h
  obtain ⟨t, ht, hp⟩ := h
  rw [beq_iff_eq] at hp
  exact List.mem_map.mpr ⟨t, ht, hp⟩

/-- An id absent from the store cannot be looked up. -/
theorem findById_eq_none_of_not_mem {s : TagStore} {x : Nat}
    (h : x ∉ tagIds s) : findById s x = none := by
  cases hf : findById s x with
  | none => rfl
  | some t =>
    exact absurd (mem_tagIds_of_findById_isSome (by rw [hf]; rfl)) h

/-- Under unique ids, two stored rows with the same id coincide. -/
theorem eq_of_mem_of_id_eq {s : TagStore} (hn : NodupIds s) {a b : Tag}
    (ha : a ∈ s.tags) (hb : b ∈ s.tags) (hid : a.id = b.id) : a = b := by
  exact List.inj_on_of_nodup_map hn ha hb hid

/-- Under unique ids, every stored row is found by its id. -/
theorem mem_findById {s : TagStore} (hn : NodupIds s) {t : Tag}
    (ht : t ∈ s.tags) : findById s t.id = some t := by
  cases hf : findById s t.id with
  | none =>
    rw [findById, List.find?_eq_none] at hf
    exact absurd (by simp) (hf t ht)
  | some u =>
    have hu : u = t :=
      eq_of_mem_of_id_eq hn (findById_mem hf) ht (findById_id hf)
    rw [hu]

/-- Under unique ids, an active lookup refines the plain lookup. -/
theorem findActive_findById {s : TagStore} (hn : NodupIds s) {i : Nat}
    {t : Tag} (h : findActive s i = some t) : findById s i = some t := by
  obtain ⟨hid, _, hmem⟩ := findActive_spec h
  rw [← hid]
  exact mem_findById hn hmem

/-- Row replacement does not alter lookups of other ids. -/
theorem find?_replace_ne (l : List Tag) (t' : Tag) (x : Nat)
    (hx : x ≠ t'.id) :
    (l.map (fun t => if t.id == t'.id then t' else t)).find?
        (fun t => t.id == x) =
      l.find? (fun t => t.id == x) := by
  induction l with
  | nil => rfl
  | cons h tl ih =>
    simp only [List.map_cons, List.find?_cons]
    by_cases hh : h.id = t'.id
    · have h1 : (if (h.id == t'.id) then t' else h) = t' := by simp [hh]
      have h2 : (t'.id == x) = false := by simp [(Ne.symm hx)]
      have h3 : (h.id == x) = false := by simp [hh, (Ne.symm hx)]
      rw [h1, h2, h3]
      exact ih
    · have h1 : (if (h.id == t'.id) then t' else h) = h := by simp [hh]
      rw [h1]
      cases hpx : (h.id == x) with
      | false => exact ih
      | true => rfl

/-- Row replacement is observed by a lookup of the replaced id,
provided some row had that id. -/
theorem find?_replace_self (l : List Tag) (t' u : Tag)
    (hu : l.find? (fun t => t.id == t'.id) = some u) :
    (l.map (fun t => if t.id == t'.id then t' else t)).find?
        (fun t => t.id == t'.id) = some t' := by
  induction l with
  | nil => cases hu
  | cons h tl ih =>
    simp only [List.map_cons, List.find?_cons] at hu ⊢
    by_cases hh : h.id = t'.id
    · have h1 : (if (h.id == t'.id) then t' else h) = t' := by simp [hh]
      rw [h1]
      simp
    · have h1 : (if (h.id == t'.id) then t' else h) = h := by simp [hh]
      have h2 : (h.id == t'.id) = false := by simp [hh]
      rw [h1, h2]
      rw [h2] at hu
      exact ih hu

/-- setTag leaves lookups of other ids unchanged. -/
theorem findById_setTag_ne {s : TagStore} {t' : Tag} {x : Nat}
    (hx : x ≠ t'.id) : findById (setTag s t') x = findById s x :=
  find?_replace_ne s.tags t' x hx

/-- setTag replaces what the lookup of the written id returns. -/
theorem findById_setTag_self {s : TagStore} {t' u : Tag}
    (hu : findById s t'.id = some u) :
    findById (setTag s t') t'.id = some t' :=
  find?_replace_self s.tags t' u hu

/-- The parent chain after setTag: only the written row's link can
change. -/
theorem parentLink_setTag {s : TagStore} {t' u : Tag}
    (hu : findById s t'.id = some u) (x : Nat) :
    parentLink (setTag s t') x =
      if x = t'.id then t'.parent_id else parentLink s x := by
  by_cases hx : x = t'.id
  · subst hx
    unfold parentLink
    rw [findById_setTag_self hu]
    simp
  · unfold parentLink
    rw [findById_setTag_ne hx]
    simp [hx]

/-- setTag with a row of unchanged parent pointer preserves every
parent link. -/
theorem parentLink_setTag_same {s : TagStore} {t' u : Tag}
    (hu : findById s t'.id = some u) (hpar : t'.parent_id = u.parent_id)
    (x : Nat) : parentLink (setTag s t') x = parentLink s x := by
  rw [parentLink_setTag hu]
  by_cases hx : x = t'.id
  · subst hx
    simp [parentLink, hu, hpar]
  · simp [hx]

/-- setTag preserves the list of ids. -/
theorem tagIds_setTag (s : TagStore) (t' : Tag) :
    tagIds (setTag s t') = tagIds s := by
  unfold tagIds setTag
  simp only [List.map_map]
  apply List.map_congr_left
  intro t _
  by_cases h : t.id = t'.id <;> simp [Function.comp, h]

/-- updatePathOne only rewrites the path column. -/
theorem updatePathOne_id (s : TagStore) (t : Tag) :
    (updatePathOne s t).id = t.id ∧
      (updatePathOne s t).parent_id = t.parent_id := by
  unfold updatePathOne
  cases t.parent_id.bind (findById s) <;> exact ⟨rfl, rfl⟩

/-- Auxiliary: a fold of parent-link preserving passes preserves parent
links. -/
theorem foldl_update_path_parentLink (n : Nat)
    (ih : ∀ s i x, parentLink (update_path n s i) x = parentLink s x)
    (l : List Nat) (acc : TagStore) (x : Nat) :
    parentLink (l.foldl (fun a c => update_path n a c) acc) x =
      parentLink acc x := by
  induction l generalizing acc with
  | nil => rfl
  | cons c cs ihl =>
    rw [List.foldl_cons, ihl, ih]

/-- update_path never changes any parent link. -/
theorem parentLink_update_path (fuel : Nat) :
    ∀ s i x, parentLink (update_path fuel s i) x = parentLink s x := by
  induction fuel with
  | zero => intro s i x; rfl
  | succ n ih =>
    intro s i x
    cases hf : findById s i with
    | none => simp [update_path, hf]
    | some t =>
      simp only [update_path, hf]
      rw [foldl_update_path_parentLink n ih]
      have hid : (updatePathOne s t).id = t.id := (updatePathOne_id s t).1
      have hu : findById s (updatePathOne s t).id = some t := by
        rw [hid, findById_id hf]
        exact hf
      exact parentLink_setTag_same hu
        (by rw [(updatePathOne_id s t).2]) x

/-- Auxiliary: a fold of id-preserving passes preserves the id list. -/
theorem foldl_update_path_tagIds (n : Nat)
    (ih : ∀ s i, tagIds (update_path n s i) = tagIds s)
    (l : List Nat) (acc : TagStore) :
    tagIds (l.foldl (fun a c => update_path n a c) acc) = tagIds acc := by
  induction l generalizing acc with
  | nil => rfl
  | cons c cs ihl =>
    rw [List.foldl_cons, ihl, ih]

/-- update_path never changes the id list. -/
theorem tagIds_update_path (fuel : Nat) :
    ∀ s i, tagIds (update_path fuel s i) = tagIds s := by
  induction fuel with
  | zero => intro s i; rfl
  | succ n ih =>
    intro s i
    cases hf : findById s i with
    | none => simp [update_path, hf]
    | some t =>
      simp only [update_path, hf]
      rw [foldl_update_path_tagIds n ih, tagIds_setTag]

/-- Pigeonhole bound: if a run over a step function whose sources all
lie in a list `D` reaches `b`, it reaches `b` within `D.length` steps. -/
theorem reach_bound_gen (f : Nat → Option Nat) (D : List Nat)
    (hdom : ∀ x y, f x = some y → x ∈ D) {a b n : Nat} (hn : 0 < n)
    (hit : iterL f n (some a) = some b) :
    ∃ k, 0 < k ∧ k ≤ D.length ∧ iterL f k (some a) = some b := by
  have hP : ∃ m, 0 < m ∧ iterL f m (some a) = some b := ⟨n, hn, hit⟩
  obtain ⟨hkpos, hkit⟩ := Nat.find_spec hP
  refine ⟨Nat.find hP, hkpos, ?_, hkit⟩
  by_contra hlt
  push_neg at hlt
  have hsome : ∀ j, j ≤ Nat.find hP → ∃ x, iterL f j (some a) = some x :=
    fun j hj => iterL_isSome_of f hkit hj
  have hinj : ∀ i j, i < j → j < Nat.find hP →
      iterL f i (some a) ≠ iterL f j (some a) := by
    intro i j hij hjk heq
    have h1 : iterL f (j + (Nat.find hP - j)) (some a) = some b := by
      rw [Nat.add_sub_cancel' (le_of_lt hjk)]
      exact hkit
    have h2 : iterL f (i + (Nat.find hP - j)) (some a) = some b := by
      rw [iterL_add, heq, ← iterL_add]
      exact h1
    have h3 : 0 < i + (Nat.find hP - j) := by omega
    have h4 : i + (Nat.find hP - j) < Nat.find hP := by omega
    exact Nat.find_min hP h4 ⟨h3, h2⟩
  have hmem : ∀ j, j < Nat.find hP →
      ((iterL f j (some a)).getD 0) ∈ D := by
    intro j hj
    obtain ⟨x, hx⟩ := hsome j (le_of_lt hj)
    obtain ⟨y, hy⟩ := hsome (j + 1) (by omega)
    have hstep : (iterL f j (some a)).bind f = some y := hy
    rw [hx] at hstep
    rw [hx]
    exact hdom x y hstep
  have hinjOn : Set.InjOn (fun j => (iterL f j (some a)).getD 0)
      ↑(Finset.range (Nat.find hP)) := by
    intro i hi j hj heq
    simp only [Finset.coe_range, Set.mem_Iio] at hi hj
    rcases lt_trichotomy i j with hij | hij | hij
    · exfalso
      obtain ⟨xi, hxi⟩ := hsome i (by omega)
      obtain ⟨xj, hxj⟩ := hsome j (by omega)
      have heq2 : (iterL f i (some a)).getD 0 =
          (iterL f j (some a)).getD 0 := heq
      rw [hxi, hxj] at heq2
      simp only [Option.getD_some] at heq2
      apply hinj i j hij hj
      rw [hxi, hxj, heq2]
    · exact hij
    · exfalso
      obtain ⟨xi, hxi⟩ := hsome i (by omega)
      obtain ⟨xj, hxj⟩ := hsome j (by omega)
      have heq2 : (iterL f i (some a)).getD 0 =
          (iterL f j (some a)).getD 0 := heq
      rw [hxi, hxj] at heq2
      simp only [Option.getD_some] at heq2
      apply hinj j i hij hi
      rw [hxi, hxj, heq2]
  have hcard := Finset.card_le_card_of_injOn
      (fun j => (iterL f j (some a)).getD 0)
      (fun j hj => List.mem_toFinset.mpr (hmem j (Finset.mem_range.mp hj)))
      hinjOn
  rw [Finset.card_range] at hcard
  have hDcard := List.toFinset_card_le D
  omega

/-- Completeness of the fuel-bounded walk: a target reached by the
parent chain within the fuel bound appears in the walk, provided its
row exists. -/
theorem mem_ancWalk_of_iterL (s : TagStore) :
    ∀ n fuel o b, n < fuel → iterL (parentLink s) n o = some b →
      (findById s b).isSome = true → b ∈ ancWalk s fuel o := by
  intro n
  induction n with
  | zero =>
    intro fuel o b hfuel hit hb
    have ho : o = some b := hit
    cases fuel with
    | zero => omega
    | succ m =>
      cases hfb : findById s b with
      | none => rw [hfb] at hb; cases hb
      | some p =>
        rw [ho]
        have : ancWalk s (m + 1) (some b) = b :: ancWalk s m p.parent_id := by
          simp [ancWalk, hfb]
        rw [this]
        exact List.mem_cons_self b _
  | succ n ih =>
    intro fuel o b hfuel hit hb
    rw [iterL_succ_front] at hit
    cases ho : o with
    | none =>
      rw [ho] at hit
      rw [show (Option.bind none (parentLink s)) = none from rfl,
        iterL_none] at hit
      cases hit
    | some a =>
      rw [ho] at hit
      have hbind : (some a).bind (parentLink s) = parentLink s a := rfl
      rw [hbind] at hit
      cases hpa : parentLink s a with
      | none => rw [hpa, iterL_none] at hit; cases hit
      | some c =>
        have hta : ∃ ta, findById s a = some ta := by
          unfold parentLink at hpa
          cases hfb : findById s a with
          | none => rw [hfb] at hpa; cases hpa
          | some ta => exact ⟨ta, rfl⟩
        obtain ⟨ta, hta⟩ := hta
        have hpar : ta.parent_id = parentLink s a := by
          unfold parentLink
          rw [hta]
          rfl
        cases fuel with
        | zero => omega
        | succ m =>
          have hm : n < m := by omega
          have hit2 : iterL (parentLink s) n ta.parent_id = some b := by
            rw [hpar, hpa]
            rw [hpa] at hit
            exact hit
          have hmem := ih m ta.parent_id b hm hit2 hb
          have : ancWalk s (m + 1) (some a) = a :: ancWalk s m ta.parent_id := by
            simp [ancWalk, hta]
          rw [this]
          exact List.mem_cons_of_mem a hmem

/-- A tag reachable upward from `a` (one or more parent steps) occurs
in the recorded ancestor list of `a`'s row. -/
theorem reaches_mem_getAncestors {s : TagStore} {a b : Nat} {p : Tag}
    (hp : findById s a = some p) (hb : (findById s b).isSome = true)
    {n : Nat} (hn : 0 < n)
    (hit : iterL (parentLink s) n (some a) = some b) :
    b ∈ get_ancestors s p := by
  have hdom : ∀ x y, parentLink s x = some y → x ∈ tagIds s := by
    intro x y hxy
    apply mem_tagIds_of_findById_isSome
    unfold parentLink at hxy
    cases hfb : findById s x with
    | none => rw [hfb] at hxy; cases hxy
    | some u => rfl
  obtain ⟨k, hkpos, hkle, hkit⟩ :=
    reach_bound_gen (parentLink s) (tagIds s) hdom hn hit
  have hk1 : k - 1 + 1 = k := Nat.succ_pred_eq_of_pos hkpos
  have hit2 : iterL (parentLink s) (k - 1) (parentLink s a) = some b := by
    have h1 := iterL_succ_front (parentLink s) (k - 1) (some a)
    rw [hk1] at h1
    rw [h1] at hkit
    exact hkit
  have hpa : parentLink s a = p.parent_id := by
    unfold parentLink
    rw [hp]
    rfl
  rw [hpa] at hit2
  have hlenIds : (tagIds s).length = s.tags.length := by simp [tagIds]
  have hlen : k - 1 < s.tags.length := by omega
  exact mem_ancWalk_of_iterL s (k - 1) s.tags.length p.parent_id b hlen hit2 hb

/-- Soundness of the executable acyclicity check. -/
theorem checkAcyclic_acyclic {s : TagStore} (h : checkAcyclic s = true) :
    Acyclic s := by
  intro a n hn hcy
  obtain ⟨x, hx⟩ := iterL_isSome_of (parentLink s) hcy (show 1 ≤ n from hn)
  have hfa : parentLink s a = some x := hx
  have hta : ∃ ta, findById s a = some ta := by
    unfold parentLink at hfa
    cases hfb : findById s a with
    | none => rw [hfb] at hfa; cases hfa
    | some ta => exact ⟨ta, rfl⟩
  obtain ⟨ta, hta⟩ := hta
  have hbsome : (findById s a).isSome = true := by rw [hta]; rfl
  have hmem := reaches_mem_getAncestors hta hbsome hn hcy
  have htamem : ta ∈ s.tags := findById_mem hta
  rw [checkAcyclic, List.all_eq_true] at h
  have hcont := h ta htamem
  rw [Bool.not_eq_true'] at hcont
  have : (get_ancestors s ta).contains ta.id = true := by
    rw [findById_id hta]
    exact List.elem_eq_true_of_mem hmem
  rw [this] at hcont
  cases hcont

/-- Updating the successor of a single id preserves acyclicity,
provided the new target (when present) is neither the id itself nor a
node from which the old chain reaches the id. -/
theorem acyclicF_update (f : Nat → Option Nat) (tid : Nat)
    (pOpt : Option Nat) (hf : AcyclicF f)
    (hno : ∀ pid, pOpt = some pid →
      pid ≠ tid ∧ ∀ k, 0 < k → iterL f k (some pid) ≠ some tid) :
    AcyclicF (fun x => if x = tid then pOpt else f x) := by
  intro a n hn hcy
  by_cases hvisit : ∃ j, j < n ∧
      iterL (fun x => if x = tid then pOpt else f x) j (some a) = some tid
  case neg =>
    push_neg at hvisit
    rw [iterL_congr_avoid f (fun x => if x = tid then pOpt else f x) tid
      (fun x hx => by simp [hx]) n (some a)
      (fun j hj => hvisit j hj)] at hcy
    exact hf a n hn hcy
  case pos =>
    obtain ⟨j, hj, hjv⟩ := hvisit
    have hrot : iterL (fun x => if x = tid then pOpt else f x) n
        (some tid) = some tid := by
      have h1 := (iterL_add (fun x => if x = tid then pOpt else f x)
        j n (some a)).symm
      rw [hjv] at h1
      have h2 : iterL (fun x => if x = tid then pOpt else f x) (j + n)
          (some a) = iterL (fun x => if x = tid then pOpt else f x) j
            (iterL (fun x => if x = tid then pOpt else f x) n (some a)) := by
        rw [Nat.add_comm, iterL_add]
      rw [h1, h2, hcy, hjv]
    have hk1 : n - 1 + 1 = n := Nat.succ_pred_eq_of_pos hn
    have hpeel : iterL (fun x => if x = tid then pOpt else f x) (n - 1)
        (if tid = tid then pOpt else f tid) = some tid := by
      have h1 := iterL_succ_front (fun x => if x = tid then pOpt else f x)
        (n - 1) (some tid)
      rw [hk1] at h1
      rw [h1] at hrot
      exact hrot
    rw [if_pos rfl] at hpeel
    cases hpopt : pOpt with
    | none =>
      rw [hpopt, iterL_none] at hpeel
      cases hpeel
    | some pid =>
      obtain ⟨hpt, hnr⟩ := hno pid hpopt
      rw [hpopt] at hpeel
      have hn1 : 0 < n - 1 := by
        rcases Nat.eq_zero_or_pos (n - 1) with h0 | h1
        · rw [h0] at hpeel
          have : pid = tid := by injection hpeel
          exact absurd this hpt
        · exact h1
      have hPex : ∃ m, 0 < m ∧
          iterL (fun x => if x = tid then pOpt else f x) m (some pid) =
            some tid := ⟨n - 1, hn1, by rw [hpopt]; exact hpeel⟩
      obtain ⟨hkpos, hkit⟩ := Nat.find_spec hPex
      have hav : ∀ j2, j2 < Nat.find hPex →
          iterL (fun x => if x = tid then pOpt else f x) j2 (some pid) ≠
            some tid := by
        intro j2 hj2 hbad
        rcases Nat.eq_zero_or_pos j2 with h0 | hpos
        · rw [h0] at hbad
          have : pid = tid := by injection hbad
          exact absurd this hpt
        · exact Nat.find_min hPex hj2 ⟨hpos, hbad⟩
      rw [iterL_congr_avoid f (fun x => if x = tid then pOpt else f x) tid
        (fun x hx => by simp [hx]) (Nat.find hPex) (some pid) hav] at hkit
      exact hnr (Nat.find hPex) hkpos hkit

/-- The foreign-key predicate, in propositional form. -/
theorem parentsExist_iff (s : TagStore) :
    ParentsExist s ↔
      ∀ t ∈ s.tags, ∀ p, t.parent_id = some p → p ∈ tagIds s := by
  unfold ParentsExist parentsOkB
  rw [List.all_eq_true]
  constructor
  · intro h t ht p hp
    have h2 := h t ht
    rw [hp] at h2
    exact List.mem_of_elem_eq_true h2
  · intro h t ht
    cases hp : t.parent_id with
    | none => rfl
    | some p => exact List.elem_eq_true_of_mem (h t ht p hp)

/-- If a store with the same ids has each parent link equal to a
one-point update of the old links, and the new target is a stored id,
the foreign keys stay valid. -/
theorem parentsExist_of_update {s2 s : TagStore} (tid : Nat)
    (pOpt : Option Nat) (hnd2 : NodupIds s2) (hids : tagIds s2 = tagIds s)
    (hpl : ∀ x, parentLink s2 x = if x = tid then pOpt else parentLink s x)
    (hp : ∀ p, pOpt = some p → p ∈ tagIds s)
    (hpe : ParentsExist s) : ParentsExist s2 := by
  rw [parentsExist_iff] at hpe ⊢
  intro t ht p hpar
  have hfind : findById s2 t.id = some t := mem_findById hnd2 ht
  have hl2 : parentLink s2 t.id = t.parent_id := by
    unfold parentLink
    rw [hfind]
    rfl
  rw [hids]
  have hthis := hpl t.id
  by_cases hx : t.id = tid
  · rw [if_pos hx] at hthis
    have hps : pOpt = some p := by
      rw [← hthis, hl2]
      exact hpar
    exact hp p hps
  · rw [if_neg hx] at hthis
    have hsl : parentLink s t.id = some p := by
      rw [← hthis, hl2]
      exact hpar
    unfold parentLink at hsl
    cases hfu : findById s t.id with
    | none => rw [hfu] at hsl; cases hsl
    | some u =>
      rw [hfu] at hsl
      exact hpe u (findById_mem hfu) p hsl

/-- Every stored id is bounded by the running maximum. -/
theorem le_foldr_max (l : List Tag) :
    ∀ t ∈ l, t.id ≤ l.foldr (fun t m => max t.id m) 0 := by
  induction l with
  | nil => intro t ht; cases ht
  | cons h tl ih =>
    intro t ht
    rcases List.mem_cons.mp ht with rfl | htl
    · exact le_max_left _ _
    · exact le_trans (ih t htl) (le_max_right _ _)

/-- The generated id is indeed fresh. -/
theorem freshId_not_mem (s : TagStore) : freshId s ∉ tagIds s := by
  intro hmem
  obtain ⟨t, ht, hid⟩ := List.mem_map.mp hmem
  have := le_foldr_max s.tags t ht
  unfold freshId at hid
  omega

/-- Parent links after appending a fresh row: only the fresh id gains a
link. -/
theorem parentLink_append {s : TagStore} {newTag : Tag}
    (hfresh : newTag.id ∉ tagIds s) (x : Nat) :
    parentLink { s with tags := s.tags ++ [newTag] } x =
      if x = newTag.id then newTag.parent_id else parentLink s x := by
  unfold parentLink findById
  show ((s.tags ++ [newTag]).find? (fun t => t.id == x)).bind _ = _
  rw [List.find?_append]
  by_cases hx : x = newTag.id
  · subst hx
    have h0 : s.tags.find? (fun t => t.id == newTag.id) = none := by
      rw [List.find?_eq_none]
      intro t ht hbeq
      rw [beq_iff_eq] at hbeq
      exact hfresh (List.mem_map.mpr ⟨t, ht, hbeq⟩)
    rw [h0]
    simp [List.find?]
  · have h1 : List.find? (fun t => t.id == x) [newTag] = none := by
      simp only [List.find?]
      have : (newTag.id == x) = false := by
        simp
        exact fun h => hx h.symm
      rw [this]
    rw [h1, Option.or_none]
    simp [hx]

/-- The ids after appending a row. -/
theorem tagIds_append (s : TagStore) (newTag : Tag) :
    tagIds { s with tags := s.tags ++ [newTag] } =
      tagIds s ++ [newTag.id] := by
  simp [tagIds]

/-- Parent links after the commit phase of a mutation (setTag followed
by the update_path cascade). -/
theorem parentLink_after_commit {s : TagStore} {tag1 u : Tag}
    (hu : findById s tag1.id = some u) (fuel i x : Nat) :
    parentLink (update_path fuel (setTag s tag1) i) x =
      if x = tag1.id then tag1.parent_id else parentLink s x := by
  rw [parentLink_update_path, parentLink_setTag hu]

/-- Ids after the commit phase of a mutation. -/
theorem tagIds_after_commit (s : TagStore) (tag1 : Tag) (fuel i : Nat) :
    tagIds (update_path fuel (setTag s tag1) i) = tagIds s := by
  rw [tagIds_update_path, tagIds_setTag]

/-- A passed cycle check means the two ids differ. -/
theorem can_be_parent_ne {s : TagStore} {new_parent tag : Tag}
    (hcb : can_be_parent_of s new_parent tag = true) :
    new_parent.id ≠ tag.id := by
  intro he
  unfold can_be_parent_of at hcb
  rw [if_pos (by simp [he])] at hcb
  cases hcb

/-- A passed cycle check means the moved tag is not among the new
parent's ancestors. -/
theorem can_be_parent_not_anc {s : TagStore} {new_parent tag : Tag}
    (hcb : can_be_parent_of s new_parent tag = true) :
    tag.id ∉ get_ancestors s new_parent := by
  intro hmem2
  unfold can_be_parent_of at hcb
  rw [if_neg (by simp [can_be_parent_ne hcb]),
    if_pos (List.elem_eq_true_of_mem hmem2)] at hcb
  cases hcb

/-- Invariant preservation by the commit phase of a move (or any
single-row parent rewrite whose new target passed the checks). -/
theorem invariant_of_commit {s : TagStore} (hI : Invariant s)
    {t u : Tag} (hfb : findById s t.id = some t)
    (hid1 : u.id = t.id)
    (hp : ∀ p, u.parent_id = some p → p ∈ tagIds s)
    (hno : ∀ p, u.parent_id = some p →
      p ≠ t.id ∧ ∀ k, 0 < k → iterL (parentLink s) k (some p) ≠ some t.id)
    (fuel i : Nat) :
    Invariant (update_path fuel (setTag s u) i) := by
  obtain ⟨hnd, hpe, hac⟩ := hI
  have hu : findById s u.id = some t := by
    rw [hid1]
    exact hfb
  have hplx : ∀ x, parentLink (update_path fuel (setTag s u) i) x =
      if x = t.id then u.parent_id else parentLink s x := by
    intro x
    rw [parentLink_after_commit hu fuel i x, hid1]
  have hids : tagIds (update_path fuel (setTag s u) i) = tagIds s :=
    tagIds_after_commit s u fuel i
  have hnd2 : NodupIds (update_path fuel (setTag s u) i) := by
    unfold NodupIds
    rw [hids]
    exact hnd
  refine ⟨hnd2, ?_, ?_⟩
  · exact parentsExist_of_update t.id u.parent_id hnd2 hids hplx hp hpe
  · have hupd := acyclicF_update (parentLink s) t.id u.parent_id hac hno
    exact AcyclicF_ext (fun x => (hplx x).symm) hupd

/-- Moving a tag preserves the store invariant: in particular no cycle
can be introduced. -/
theorem move_preserves_invariant {s : TagStore} (hI : Invariant s)
    {tid : Nat} {npid : Option Nat} {s2 : TagStore}
    (h : move_tag s tid npid = .ok s2) : Invariant s2 := by
  have hnd := hI.1
  unfold move_tag at h
  split at h
  · cases h
  next tag hft =>
    obtain ⟨hid, hst, hmem⟩ := findActive_spec hft
    have hfb : findById s tid = some tag := findActive_findById hnd hft
    have hfb2 : findById s tag.id = some tag := by rw [hid]; exact hfb
    split at h
    next pid =>
      split at h
      · cases h
      next new_parent hfp =>
        split at h
        next hcb =>
          injection h with hs2
          subst hs2
          obtain ⟨hpid, hpst, hpmem⟩ := findActive_spec hfp
          apply invariant_of_commit
            (u := { tag with parent_id := some pid,
                             level := new_parent.level + 1 }) hI hfb2 rfl
          · intro p hpeq
            have hpp : pid = p := by
              have hss : some pid = some p := hpeq
              injection hss
            subst hpp
            exact List.mem_map.mpr ⟨new_parent, hpmem, hpid⟩
          · intro p hpeq
            have hpp : pid = p := by
              have hss : some pid = some p := hpeq
              injection hss
            subst hpp
            constructor
            · intro he
              exact can_be_parent_ne hcb (by rw [hpid, he])
            · intro k hk hreach
              apply can_be_parent_not_anc hcb
              have hfp2 : findById s pid = some new_parent :=
                findActive_findById hnd hfp
              have hbs : (findById s tag.id).isSome = true := by
                rw [hfb2]
                rfl
              exact reaches_mem_getAncestors hfp2 hbs hk hreach
        · cases h
    next =>
      injection h with hs2
      subst hs2
      apply invariant_of_commit
        (u := { tag with parent_id := none, level := 0 }) hI hfb2 rfl
      · intro p hpeq
        cases hpeq
      · intro p hpeq
        cases hpeq

/-- Invariant preservation by the commit phase of a create: appending a
fresh row whose parent (if any) is a stored id. -/
theorem invariant_append {s : TagStore} (hI : Invariant s) {newTag : Tag}
    (hfid : newTag.id = freshId s)
    (hp : ∀ p, newTag.parent_id = some p → p ∈ tagIds s)
    (fuel i : Nat) :
    Invariant (update_path fuel { s with tags := s.tags ++ [newTag] } i) := by
  obtain ⟨hnd, hpe, hac⟩ := hI
  have hfresh : newTag.id ∉ tagIds s := by
    rw [hfid]
    exact freshId_not_mem s
  have hplx : ∀ x,
      parentLink (update_path fuel { s with tags := s.tags ++ [newTag] } i) x
        = if x = newTag.id then newTag.parent_id else parentLink s x := by
    intro x
    rw [parentLink_update_path, parentLink_append hfresh]
  have hids : tagIds (update_path fuel
      { s with tags := s.tags ++ [newTag] } i) = tagIds s ++ [newTag.id] := by
    rw [tagIds_update_path, tagIds_append]
  have hnd2 : NodupIds (update_path fuel
      { s with tags := s.tags ++ [newTag] } i) := by
    unfold NodupIds
    rw [hids, List.nodup_append]
    refine ⟨hnd, List.nodup_singleton _, ?_⟩
    intro x hx hx2
    rw [List.mem_singleton] at hx2
    subst hx2
    exact hfresh hx
  refine ⟨hnd2, ?_, ?_⟩
  · rw [parentsExist_iff]
    intro t ht p hpar
    have hfind := mem_findById hnd2 ht
    have hl2 : parentLink (update_path fuel
        { s with tags := s.tags ++ [newTag] } i) t.id = t.parent_id := by
      unfold parentLink
      rw [hfind]
      rfl
    have hthis := hplx t.id
    rw [hids]
    by_cases hx : t.id = newTag.id
    · rw [if_pos hx] at hthis
      have hps : newTag.parent_id = some p := by
        rw [← hthis, hl2]
        exact hpar
      exact List.mem_append_left _ (hp p hps)
    · rw [if_neg hx] at hthis
      have hsl : parentLink s t.id = some p := by
        rw [← hthis, hl2]
        exact hpar
      unfold parentLink at hsl
      cases hfu : findById s t.id with
      | none => rw [hfu] at hsl; cases hsl
      | some u =>
        rw [hfu] at hsl
        exact List.mem_append_left _
          ((parentsExist_iff s).mp hpe u (findById_mem hfu) p hsl)
  · have hno : ∀ p, newTag.parent_id = some p →
        p ≠ newTag.id ∧
          ∀ k, 0 < k → iterL (parentLink s) k (some p) ≠ some newTag.id := by
      intro p hps
      constructor
      · intro he
        exact hfresh (he ▸ hp p hps)
      · intro k hk hreach
        have hk1 : k - 1 + 1 = k := Nat.succ_pred_eq_of_pos hk
        rw [← hk1] at hreach
        have hreach2 : (iterL (parentLink s) (k - 1) (some p)).bind
            (parentLink s) = some newTag.id := hreach
        cases hlast : iterL (parentLink s) (k - 1) (some p) with
        | none => rw [hlast] at hreach2; cases hreach2
        | some z =>
          rw [hlast] at hreach2
          have hz : parentLink s z = some newTag.id := hreach2
          unfold parentLink at hz
          cases hfz : findById s z with
          | none => rw [hfz] at hz; cases hz
          | some u =>
            rw [hfz] at hz
            exact hfresh
              ((parentsExist_iff s).mp hpe u (findById_mem hfz) _ hz)
    have hupd := acyclicF_update (parentLink s) newTag.id newTag.parent_id
      hac hno
    exact AcyclicF_ext (fun x => (hplx x).symm) hupd

/-- Creating a tag preserves the store invariant. -/
theorem create_preserves_invariant {s : TagStore} (hI : Invariant s)
    {name : String} {uid : Nat} {pid : Option Nat}
    {desc nameEn cat dom : String} {isAbs : Bool} {als : List String}
    {s2 : TagStore} {nid : Nat}
    (h : create_tag s name uid pid desc nameEn cat dom isAbs als =
      .ok (s2, nid)) : Invariant s2 := by
  unfold create_tag at h
  split at h
  · cases h
  · split at h
    · cases h
    · split at h
      next pid2 =>
        split at h
        · cases h
        next parent_tag hfp =>
          split at h
          · cases h
          · injection h with hpair
            have hs2 : (createCommit s (pyStrip name) uid (some pid2) desc
                nameEn cat dom isAbs als (parent_tag.level + 1)).1 = s2 := by
              rw [hpair]
            rw [← hs2]
            obtain ⟨hpid, _, hpmem⟩ := findActive_spec hfp
            apply invariant_append hI rfl
            intro p hps
            have hpp : pid2 = p := by
              have hss : some pid2 = some p := hps
              injection hss
            subst hpp
            exact List.mem_map.mpr ⟨parent_tag, hpmem, hpid⟩
      next =>
        split at h
        · cases h
        · injection h with hpair
          have hs2 : (createCommit s (pyStrip name) uid none desc nameEn cat
              dom isAbs als 0).1 = s2 := by
            rw [hpair]
          rw [← hs2]
          apply invariant_append hI rfl
          intro p hps
          cases hps

/-- Moving a tag under itself or under one of its strict descendants is
rejected with the cycle validation message. -/
theorem move_cycle_error {s : TagStore} (hI : Invariant s)
    {tid pid : Nat} {tg p : Tag}
    (hft : findActive s tid = some tg) (hfp : findActive s pid = some p)
    (hcyc : pid = tid ∨ Reaches s pid tid) :
    move_tag s tid (some pid) = .error "无法移动到此位置，会创建循环引用" := by
  have hnd := hI.1
  obtain ⟨hid, _, hmem⟩ := findActive_spec hft
  obtain ⟨hpid, _, hpmem⟩ := findActive_spec hfp
  have hcb : can_be_parent_of s p tg = false := by
    by_cases hsame : p.id = tg.id
    · unfold can_be_parent_of
      rw [if_pos (by simp [hsame])]
    · rcases hcyc with he | hr
      · exact absurd (by rw [hpid, he, hid]) hsame
      · unfold can_be_parent_of
        rw [if_neg (by simp [hsame])]
        obtain ⟨n, hn, hit⟩ := hr
        have hfp2 : findById s pid = some p := findActive_findById hnd hfp
        have hfb : findById s tid = some tg := findActive_findById hnd hft
        have hbs : (findById s tid).isSome = true := by
          rw [hfb]
          rfl
        have hanc : tid ∈ get_ancestors s p :=
          reaches_mem_getAncestors hfp2 hbs hn hit
        rw [if_pos (List.elem_eq_true_of_mem (by rw [hid]; exact hanc))]
  simp [move_tag, hft, hfp, hcb]

/-- C3: for any sequence of create and move operations no tag is ever
its own ancestor — creating and moving both preserve the store
invariant (unique ids, valid parent references, acyclic parent chains),
and move(tagId, newParentId) fails with the cycle validation error
whenever newParentId equals tagId or newParentId is a strict descendant
of tagId (i.e. tagId is reachable upward from newParentId), the check
being the ancestor walk of the prospective new parent performed before
any reassignment commits. -/
theorem C3_no_cycle_invariant (s : TagStore) (hI : Invariant s) :
    (∀ name uid pid desc nameEn cat dom isAbs als s2 nid,
        create_tag s name uid pid desc nameEn cat dom isAbs als =
          .ok (s2, nid) → Invariant s2)
  ∧ (∀ tid npid s2, move_tag s tid npid = .ok s2 → Invariant s2)
  ∧ (∀ tid pid tg p, findActive s tid = some tg →
      findActive s pid = some p → (pid = tid ∨ Reaches s pid tid) →
        move_tag s tid (some pid) = .error "无法移动到此位置，会创建循环引用") := by
  refine ⟨?_, ?_, ?_⟩
  · intro name uid pid desc nameEn cat dom isAbs als s2 nid h
    exact create_preserves_invariant hI h
  · intro tid npid s2 h
    exact move_preserves_invariant hI h
  · intro tid pid tg p hft hfp hcyc
    exact move_cycle_error hI hft hfp hcyc

/-- Witness for C3: on the concrete chain A -> B -> C (which satisfies
the invariant), moving A under its descendant C is rejected with the
cycle error. -/
theorem C3_no_cycle_invariant_witness :
    move_tag chainStore 1 (some 3) =
      .error "无法移动到此位置，会创建循环引用" :=
  (C3_no_cycle_invariant chainStore
      ⟨by decide, by decide, checkAcyclic_acyclic (by decide)⟩).2.2
    1 3 tagA tagC rfl rfl (Or.inr ⟨2, by decide, rfl⟩)

/-- C1 (code bug): merging source (usage 3) into target (usage 5) ends
with the target at usage 9, not 8 — merge_tags adds the source count
and then additionally calls increment_usage, which bumps the count once
more while refreshing popularity_score. -/
theorem C1_merge_usage_eval :
    (findById mergeStore 1).map (fun t => t.usage_count) = some 3 ∧
    (findById mergeStore 2).map (fun t => t.usage_count) = some 5 ∧
    merge_tags mergeStore 1 2 = .ok mergeStoreOut ∧
    (findById mergeStoreOut 2).map (fun t => t.usage_count) = some 9 :=
  ⟨rfl, rfl, rfl, rfl⟩

/-- C2 (code bug): detaching B from the chain A -> B -> C recomputes
path for B and for its descendant C (C.path becomes B/C), but level is
recomputed only for B itself — C keeps the stale level 2 although its
depth is now 1, because Tag.update_path cascades only the path column. -/
theorem C2_move_level_eval :
    move_tag chainStore 2 none = .ok chainStoreOut ∧
    (findById chainStoreOut 2).map (fun t => (t.level, t.path)) =
      some (0, "B") ∧
    (findById chainStoreOut 3).map (fun t => (t.level, t.path)) =
      some (2, "B/C") :=
  ⟨rfl, rfl, rfl⟩

/-- The merged target differs from the old target only in usage_count,
popularity_score and aliases: id and all structural fields survive. -/
theorem mergedTarget_fields (st tt : Tag) :
    (mergedTarget st tt).id = tt.id ∧
    (mergedTarget st tt).parent_id = tt.parent_id ∧
    (mergedTarget st tt).level = tt.level ∧
    (mergedTarget st tt).path = tt.path ∧
    (mergedTarget st tt).status = tt.status ∧
    (mergedTarget st tt).name = tt.name := by
  unfold mergedTarget increment_usage
  split <;> exact ⟨rfl, rfl, rfl, rfl, rfl, rfl⟩

/-- C9: merge_tags modifies only the target's usage_count,
popularity_score and aliases — the target's structural fields
(parent_id, level, path, status, name) are unchanged, no tag anywhere
is reparented (so every child of the source keeps its parent_id at the
now-merged source), and every row other than the source and the target
is left completely untouched. -/
theorem C9_merge_frame {s : TagStore} {sid tid : Nat} {s2 : TagStore}
    (hnd : NodupIds s) (h : merge_tags s sid tid = .ok s2) :
    (∃ t t2, findById s tid = some t ∧ findById s2 tid = some t2 ∧
      t2.parent_id = t.parent_id ∧ t2.level = t.level ∧ t2.path = t.path ∧
      t2.status = t.status ∧ t2.name = t.name)
  ∧ (∀ x, parentLink s2 x = parentLink s x)
  ∧ (∀ u ∈ s.tags, u.parent_id = some sid →
      ∃ u2, findById s2 u.id = some u2 ∧ u2.parent_id = some sid)
  ∧ (∀ u ∈ s.tags, u.id ≠ sid → u.id ≠ tid → findById s2 u.id = some u) := by
  unfold merge_tags at h
  split at h
  next source_tag target_tag hms hmt =>
    split at h
    · cases h
    next hne =>
      injection h with hs2
      obtain ⟨hsid, hsst, hsmem⟩ := findActive_spec hms
      obtain ⟨htid, htst, htmem⟩ := findActive_spec hmt
      have hneid : source_tag.id ≠ target_tag.id := by simpa using hne
      have hst : sid ≠ tid := by
        rw [← hsid, ← htid]
        exact hneid
      have hfbs : findById s sid = some source_tag :=
        findActive_findById hnd hms
      have hfbt : findById s tid = some target_tag :=
        findActive_findById hnd hmt
      have hTid : (mergedTarget source_tag target_tag).id = target_tag.id :=
        (mergedTarget_fields _ _).1
      have hfind_inner : findById (setTag (mergeEntryRewrite s sid tid)
          (mergedTarget source_tag target_tag)) tid =
          some (mergedTarget source_tag target_tag) := by
        have hu : findById (mergeEntryRewrite s sid tid)
            (mergedTarget source_tag target_tag).id = some target_tag := by
          rw [hTid, htid]
          exact hfbt
        have hres := findById_setTag_self hu
        rw [hTid, htid] at hres
        exact hres
      have hfind2 : findById s2 tid =
          some (mergedTarget source_tag target_tag) := by
        rw [← hs2]
        rw [findById_setTag_ne (by
          show tid ≠ source_tag.id
          rw [hsid]
          exact Ne.symm hst)]
        exact hfind_inner
      have hpl : ∀ x, parentLink s2 x = parentLink s x := by
        intro x
        rw [← hs2]
        have hu1 : findById (setTag (mergeEntryRewrite s sid tid)
            (mergedTarget source_tag target_tag))
            (mergedSource source_tag tid).id = some source_tag := by
          show findById (setTag (mergeEntryRewrite s sid tid)
            (mergedTarget source_tag target_tag)) source_tag.id =
              some source_tag
          rw [findById_setTag_ne (by
            rw [hTid, htid, hsid]
            exact hst)]
          rw [hsid]
          exact hfbs
        rw [parentLink_setTag_same hu1 rfl]
        have hu2 : findById (mergeEntryRewrite s sid tid)
            (mergedTarget source_tag target_tag).id = some target_tag := by
          rw [hTid, htid]
          exact hfbt
        rw [parentLink_setTag_same hu2 (mergedTarget_fields _ _).2.1]
        rfl
      refine ⟨⟨target_tag, mergedTarget source_tag target_tag, hfbt, hfind2,
        (mergedTarget_fields _ _).2.1, (mergedTarget_fields _ _).2.2.1,
        (mergedTarget_fields _ _).2.2.2.1,
        (mergedTarget_fields _ _).2.2.2.2.1,
        (mergedTarget_fields _ _).2.2.2.2.2⟩, hpl, ?_, ?_⟩
      · intro u hu hup
        have hfu : findById s u.id = some u := mem_findById hnd hu
        have hl : parentLink s u.id = some sid := by
          unfold parentLink
          rw [hfu]
          exact hup
        have hl2 : parentLink s2 u.id = some sid := by
          rw [hpl u.id]
          exact hl
        unfold parentLink at hl2
        cases hfu2 : findById s2 u.id with
        | none => rw [hfu2] at hl2; cases hl2
        | some u2 =>
          rw [hfu2] at hl2
          exact ⟨u2, rfl, hl2⟩
      · intro u hu hune hunt
        rw [← hs2]
        rw [findById_setTag_ne (by
          show u.id ≠ source_tag.id
          rw [hsid]
          exact hune)]
        rw [findById_setTag_ne (by
          show u.id ≠ (mergedTarget source_tag target_tag).id
          rw [hTid, htid]
          exact hunt)]
        exact mem_findById hnd hu
  next => cases h

/-- Witness for C9: merging tag 1 (which has child 3) into tag 2 in the
concrete store leaves every parent pointer in place and the target's
structural fields unchanged. -/
theorem C9_merge_frame_witness :
    parentLink mergeStoreOut 3 = parentLink mergeStore 3 ∧
    (findById mergeStoreOut 2).map
        (fun t => (t.parent_id, t.level, t.path, t.status, t.name)) =
      (findById mergeStore 2).map
        (fun t => (t.parent_id, t.level, t.path, t.status, t.name)) := by
  have h := C9_merge_frame (s := mergeStore)
    (by decide) (rfl : merge_tags mergeStore 1 2 = .ok mergeStoreOut)
  constructor
  · exact h.2.1 3
  · obtain ⟨t, t2, ht, ht2, hpar, hlvl, hpath, hstat, hname⟩ := h.1
    rw [ht, show findById mergeStoreOut 2 = some t2 from ht2]
    simp [hpar, hlvl, hpath, hstat, hname]

/-- Unfolding of candidateScore through its lets. -/
theorem candidateScore_eq (t : Tag) (c : ℚ) :
    candidateScore t c =
      (if 0 < t.usage_count then
        c * min (6/5 : ℚ) (1 + (t.usage_count : ℚ) / 100)
      else c) * (t.quality_score / 10) := rfl

/-- candidateScore is monotone in the confidence when the tag's
quality score is nonnegative. -/
theorem candidateScore_mono {t : Tag} (hq : 0 ≤ t.quality_score)
    {c1 c2 : ℚ} (hc : c1 ≤ c2) : candidateScore t c1 ≤ candidateScore t c2 := by
  rw [candidateScore_eq, candidateScore_eq]
  have hq10 : (0 : ℚ) ≤ t.quality_score / 10 := by positivity
  by_cases hu : 0 < t.usage_count
  · rw [if_pos hu, if_pos hu]
    have hf : (0 : ℚ) ≤ min (6/5 : ℚ) (1 + (t.usage_count : ℚ) / 100) := by
      apply le_min
      · norm_num
      · positivity
    exact mul_le_mul_of_nonneg_right
      (mul_le_mul_of_nonneg_right hc hf) hq10
  · rw [if_neg hu, if_neg hu]
    exact mul_le_mul_of_nonneg_right hc hq10

/-- C4: when two signal sources nominate the same resolved existing
parent (here as two candidate entries with the same parent name), the
final score retained for that tag is the MAXIMUM of the two candidate
scores, not their sum; in particular with confidences 0.9 and 0.3 the
final score is exactly the 0.9 contribution. -/
theorem C4_score_max_not_sum {s : TagStore} {n : String} {t : Tag}
    (hres : findActiveByName s n = some t) (hq : 0 ≤ t.quality_score) :
    (∀ c1 c2 : ℚ, scoreCandidates s [(n, c1), (n, c2)] =
      [(t, max (candidateScore t c1) (candidateScore t c2))])
  ∧ scoreCandidates s [(n, 9/10), (n, 3/10)] =
      [(t, candidateScore t (9/10))] := by
  have hgen : ∀ c1 c2 : ℚ, scoreCandidates s [(n, c1), (n, c2)] =
      [(t, max (candidateScore t c1) (candidateScore t c2))] := by
    intro c1 c2
    unfold scoreCandidates
    simp only [List.foldl_cons, List.foldl_nil, hres]
    simp [List.insertionSort, List.orderedInsert]
  refine ⟨hgen, ?_⟩
  rw [hgen]
  rw [max_eq_left (candidateScore_mono hq (by norm_num))]

/-- Witness for C4: in the concrete one-tag store, two candidates for
the same existing tag at confidences 0.9 and 0.3 produce exactly the
0.9 score. -/
theorem C4_score_max_not_sum_witness :
    findActiveByName classifierStore "动物" = some animalTag ∧
    scoreCandidates classifierStore [("动物", 9/10), ("动物", 3/10)] =
      [(animalTag, candidateScore animalTag (9/10))] :=
  ⟨rfl, (C4_score_max_not_sum (s := classifierStore) (n := "动物")
    (t := animalTag) rfl (by decide)).2⟩

/-- The category filter only selects from its input. -/
theorem mem_of_filterByCategory {c : Option String} {l : List Tag} {t : Tag}
    (h : t ∈ filterByCategory c l) : t ∈ l := by
  cases c with
  | none => exact h
  | some c2 => exact (List.mem_filter.mp h).1

/-- The domain filter only selects from its input. -/
theorem mem_of_filterByDomain {c : Option String} {l : List Tag} {t : Tag}
    (h : t ∈ filterByDomain c l) : t ∈ l := by
  cases c with
  | none => exact h
  | some c2 => exact (List.mem_filter.mp h).1

/-- Every node of a built subtree holds a stored active tag, provided
its root does. -/
theorem treeAll_buildTagTree (s : TagStore) :
    ∀ (d : Nat) (t : Tag), t ∈ s.tags → t.status = "active" →
      TreeAll (fun u => u ∈ s.tags ∧ u.status = "active")
        (buildTagTree s t d) := by
  intro d
  induction d with
  | zero =>
    intro t ht hst
    exact TreeAll.leaf t ⟨ht, hst⟩
  | succ d ih =>
    intro t ht hst
    apply TreeAll.branch t _ ⟨ht, hst⟩
    intro c hc
    rw [List.mem_map] at hc
    obtain ⟨c2, hc2, rfl⟩ := hc
    have hc3 := (List.perm_insertionSort nameLe _).mem_iff.mp hc2
    have hc4 := List.mem_filter.mp hc3
    refine ih c2 hc4.1 ?_
    have hand := hc4.2
    simp only [Bool.and_eq_true, beq_iff_eq] at hand
    exact hand.2

/-- Under unique ids, filtering for a stored active tag's id selects
exactly that row. -/
theorem filter_id_active_single {s : TagStore} (hnd : NodupIds s) {t : Tag}
    (ht : t ∈ s.tags) (hact : t.status = "active") :
    s.tags.filter (fun u => u.id == t.id && u.status == "active") = [t] := by
  have key : ∀ (l : List Tag), (l.map (fun u => u.id)).Nodup → t ∈ l →
      l.filter (fun u => u.id == t.id && u.status == "active") = [t] := by
    intro l
    induction l with
    | nil => intro _ hmem; cases hmem
    | cons h tl ih =>
      intro hnd2 hmem
      rw [List.map_cons, List.nodup_cons] at hnd2
      rcases List.mem_cons.mp hmem with rfl | hmem2
      · have hpred : (t.id == t.id && t.status == "active") = true := by
          simp [hact]
        have htl : tl.filter
            (fun u => u.id == t.id && u.status == "active") = [] := by
          rw [List.filter_eq_nil_iff]
          intro u hu hbad
          simp only [Bool.and_eq_true, beq_iff_eq] at hbad
          exact hnd2.1 (hbad.1 ▸ List.mem_map.mpr ⟨u, hu, rfl⟩)
        simp [List.filter_cons, hpred, htl, hact]
      · have hne : (h.id == t.id && h.status == "active") = false := by
          have hne2 : h.id ≠ t.id := by
            intro he
            exact hnd2.1 (he ▸ List.mem_map.mpr ⟨t, hmem2, rfl⟩)
          simp [hne2]
        simp only [List.filter_cons, hne, Bool.false_eq_true, if_neg,
          if_false]
        exact ih hnd2.2 hmem2
  exact key s.tags hnd ht

/-- C5 amended: every read operation (search, suggestions, popular,
tree, categories) draws exclusively from tags with status active —
deleted, merged AND deprecated tags are all excluded, because every
query filters status == active. -/
theorem C5_reads_active_only_amended (s : TagStore) (kw pn : String)
    (cat dom : Option String) (lim : Nat) (rid : Option Nat) (d : Nat) :
    (∀ t ∈ search_tags s kw cat dom lim, t ∈ s.tags ∧ t.status = "active")
  ∧ (∀ t ∈ get_tag_suggestions s pn lim, t ∈ s.tags ∧ t.status = "active")
  ∧ (∀ t ∈ get_popular_tags s lim, t ∈ s.tags ∧ t.status = "active")
  ∧ (∀ tr ∈ get_tag_tree s rid d,
      TreeAll (fun t => t ∈ s.tags ∧ t.status = "active") tr)
  ∧ (∀ ck ∈ get_categories s,
      ck.2 = ((s.tags.filter (fun t => t.status == "active")).filter
        (fun t => t.category == ck.1)).length ∧ 0 < ck.2) := by
  refine ⟨?_, ?_, ?_, ?_, ?_⟩
  · intro t ht
    unfold search_tags at ht
    have h1 := (List.take_sublist _ _).subset ht
    have h2 := (List.perm_insertionSort searchLe _).mem_iff.mp h1
    have h3 := mem_of_filterByCategory (mem_of_filterByDomain h2)
    have h5 : t ∈ s.tags.filter (fun t => t.status == "active") := by
      by_cases hk : (kw == "") = true
      · rw [if_pos hk] at h3
        exact h3
      · rw [if_neg hk] at h3
        exact (List.mem_filter.mp h3).1
    have h6 := List.mem_filter.mp h5
    exact ⟨h6.1, by simpa using h6.2⟩
  · intro t ht
    unfold get_tag_suggestions at ht
    have h1 := (List.take_sublist _ _).subset ht
    have h2 := (List.perm_insertionSort suggestLe _).mem_iff.mp h1
    have h3 := List.mem_filter.mp h2
    have hand := h3.2
    simp only [Bool.and_eq_true, beq_iff_eq] at hand
    exact ⟨h3.1, hand.1⟩
  · intro t ht
    unfold get_popular_tags at ht
    have h1 := (List.take_sublist _ _).subset ht
    have h2 := (List.perm_insertionSort popularLe _).mem_iff.mp h1
    have h3 := List.mem_filter.mp h2
    exact ⟨h3.1, by simpa using h3.2⟩
  · intro tr htr
    unfold get_tag_tree at htr
    rw [List.mem_map] at htr
    obtain ⟨t, ht, rfl⟩ := htr
    cases rid with
    | some rid2 =>
      have h1 := List.mem_filter.mp ht
      have hand := h1.2
      simp only [Bool.and_eq_true, beq_iff_eq] at hand
      exact treeAll_buildTagTree s d t h1.1 hand.2
    | none =>
      have h1 := (List.perm_insertionSort nameLe _).mem_iff.mp ht
      have h2 := List.mem_filter.mp h1
      have hand := h2.2
      simp only [Bool.and_eq_true, beq_iff_eq] at hand
      exact treeAll_buildTagTree s d t h2.1 hand.2
  · intro ck hck
    unfold get_categories at hck
    have h1 := (List.perm_insertionSort catCountLe _).mem_iff.mp hck
    rw [List.mem_map] at h1
    obtain ⟨c, hc, rfl⟩ := h1
    refine ⟨rfl, ?_⟩
    rw [List.mem_dedup, List.mem_map] at hc
    obtain ⟨a, ha, hac⟩ := hc
    have hmem : a ∈ (s.tags.filter (fun t => t.status == "active")).filter
        (fun t => t.category == c) :=
      List.mem_filter.mpr ⟨ha, by simp [hac]⟩
    exact List.length_pos.mpr (List.ne_nil_of_mem hmem)

/-- C5 counterexample: a deprecated tag whose name matches the keyword
is excluded from every read operation, refuting the claim that
deprecated tags are included in result sets. -/
theorem C5_deprecated_excluded_counterexample :
    depTag ∈ depStore.tags ∧ depTag.status = "deprecated" ∧
    matchesKeyword "cat" depTag = true ∧
    search_tags depStore "cat" none none 20 = [] ∧
    get_tag_suggestions depStore "cat" 10 = [] ∧
    get_popular_tags depStore 20 = [] ∧
    get_tag_tree depStore none 3 = [] ∧
    get_categories depStore = [] :=
  ⟨by decide, rfl, by decide, rfl, rfl, rfl, rfl, rfl⟩

/-- Witness for the amended C5 on the concrete chain store. -/
theorem C5_reads_active_only_amended_witness :
    (tagA ∈ chainStore.tags ∧ tagA.status = "active") ∧
    TreeAll (fun t => t ∈ chainStore.tags ∧ t.status = "active")
      (buildTagTree chainStore tagA 1) ∧
    ("general", 3).2 = ((chainStore.tags.filter
      (fun t => t.status == "active")).filter
        (fun t => t.category == ("general", 3).1)).length := by
  have h := C5_reads_active_only_amended chainStore "" "a" none none 20
    none 1
  refine ⟨h.1 tagA (by decide), ?_, ?_⟩
  · apply h.2.2.2.1
    rw [show get_tag_tree chainStore none 1 =
      [buildTagTree chainStore tagA 1] from rfl]
    exact List.mem_singleton_self _
  · refine (h.2.2.2.2 ("general", 3) ?_).1
    rw [show get_categories chainStore = [("general", 3)] from rfl]
    exact List.mem_singleton_self _

/-- C6 counterexample: with no rootId the top-level call DOES descend —
on the chain store with max_depth 1 the returned root node carries a
children list holding the built child of A, and is not the shallow node
the claim describes. -/
theorem C6_root_descent_counterexample :
    get_tag_tree chainStore none 1 =
      [TagTree.node tagA (some [TagTree.node tagB none])] ∧
    get_tag_tree chainStore none 1 ≠ [TagTree.node tagA none] := by
  refine ⟨rfl, ?_⟩
  intro hcontra
  rw [show get_tag_tree chainStore none 1 =
    [TagTree.node tagA (some [TagTree.node tagB none])] from rfl] at hcontra
  simp at hcontra

/-- C6 amended: with no rootId, get_tag_tree returns every active root
tag, each expanded recursively to max_depth exactly as a rooted call
expands it — the rooted call on an active root returns precisely its
built subtree, and that same built subtree is an element of the
root-less result. -/
theorem C6_roots_expanded_amended (s : TagStore) (d : Nat) (t : Tag)
    (hnd : NodupIds s) (ht : t ∈ s.tags) (hact : t.status = "active")
    (hroot : t.parent_id = none) :
    get_tag_tree s (some t.id) d = [buildTagTree s t d] ∧
    buildTagTree s t d ∈ get_tag_tree s none d := by
  constructor
  · show (s.tags.filter (fun u => u.id == t.id && u.status ==
        "active")).map (fun u => buildTagTree s u d) = [buildTagTree s t d]
    rw [filter_id_active_single hnd ht hact]
    rfl
  · show buildTagTree s t d ∈ (List.insertionSort nameLe
      (s.tags.filter (fun u =>
        u.parent_id == none && u.status == "active"))).map
      (fun u => buildTagTree s u d)
    apply List.mem_map.mpr
    refine ⟨t, ?_, rfl⟩
    rw [(List.perm_insertionSort nameLe _).mem_iff]
    exact List.mem_filter.mpr ⟨ht, by simp [hroot, hact]⟩

/-- Witness for the amended C6 at the concrete chain store. -/
theorem C6_roots_expanded_amended_witness :
    get_tag_tree chainStore (some 1) 1 = [buildTagTree chainStore tagA 1] ∧
    buildTagTree chainStore tagA 1 ∈ get_tag_tree chainStore none 1 :=
  C6_roots_expanded_amended chainStore 1 tagA (by decide) (by decide) rfl rfl

/-- C7 counterexample: a 101-character name whose last character is a
space is accepted — create_tag strips it to 100 characters and creates
the tag although the supplied name exceeds 100 characters. -/
theorem C7_padded_name_counterexample :
    paddedName.data.length = 101 ∧
    (create_tag emptyStore paddedName 0 none "" "" "general" "general"
      false []).toOption.isSome = true :=
  ⟨by decide, rfl⟩

/-- C7 amended: create_tag fails, creating no tag, whenever the TRIMMED
name is empty, exceeds 100 characters (the String(100) column bound
enforced at insert), or collides with the name of an existing active
tag. -/
theorem C7_create_validation_amended (s : TagStore) (name : String)
    (uid : Nat) (pid : Option Nat) (desc nameEn cat dom : String)
    (isAbs : Bool) (als : List String)
    (h : pyStrip name = "" ∨ 100 < (pyStrip name).data.length ∨
      ∃ t ∈ s.tags, t.name = pyStrip name ∧ t.status = "active") :
    (create_tag s name uid pid desc nameEn cat dom isAbs als).toOption =
      none := by
  unfold create_tag
  split
  · rfl
  next h1 =>
    split
    · rfl
    next hcol =>
      have hlen : 100 < (pyStrip name).data.length := by
        rcases h with he | hl | hex
        · exact absurd (by simp [he]) h1
        · exact hl
        · obtain ⟨t, htm, htn, hts⟩ := hex
          rw [List.find?_eq_none] at hcol
          exact absurd (by simp [htn, hts]) (hcol t htm)
      split
      next pid2 =>
        split
        · rfl
        · rw [if_pos hlen]
          rfl
      next =>
        rw [if_pos hlen]
        rfl

/-- Witness for the amended C7: an unpadded 101-character name is
rejected and no tag is created. -/
theorem C7_create_validation_amended_witness :
    100 < (pyStrip longName).data.length ∧
    (create_tag emptyStore longName 0 none "" "" "general" "general" false
      []).toOption = none :=
  ⟨by decide, C7_create_validation_amended emptyStore longName 0 none "" ""
    "general" "general" false [] (Or.inr (Or.inl (by decide)))⟩

/-- C8: search_tags output is sorted under the lexicographic order
usage_count descending, then quality_score descending, then name
ascending (the searchLe relation spells this out literally), and its
length never exceeds the limit. -/
theorem C8_search_sorted (s : TagStore) (kw : String)
    (cat dom : Option String) (lim : Nat) :
    List.Sorted searchLe (search_tags s kw cat dom lim) ∧
    (search_tags s kw cat dom lim).length ≤ lim := by
  constructor
  · unfold search_tags
    apply List.Pairwise.sublist (List.take_sublist _ _)
    exact List.sorted_insertionSort searchLe _
  · unfold search_tags
    exact List.length_take_le _ _

/-- C10: searching with an empty keyword does not fail and simply skips
the keyword clause — the result is exactly the active tags passed
through the optional category and domain filters, in the standard
search order, capped at the limit. -/
theorem C10_empty_keyword_skipped (s : TagStore) (cat dom : Option String)
    (lim : Nat) :
    search_tags s "" cat dom lim =
      (List.insertionSort searchLe (filterByDomain dom (filterByCategory cat
        (s.tags.filter (fun t => t.status == "active"))))).take lim := rfl

end UtopiaTag
